import Mathlib

/-!
Verification of the springmemo note client (`notegui.py`).

Part 1: the content codec.

`NormalNote.SerializeBody` wraps each line of the editable text in
`<p>...</p>` and the whole sequence in `<div id="body">...</div>`.
`NormalNote.GetBodyFromSource` extracts the first body container via the
regex `<div[^>]*?id="body"[^>]*?>(.*?)</div>` (flags M, I, U, S) and then
substitutes every `<p>(.*?)</p>` (same flags) by its capture followed by a
newline.  Both regex operations are embedded below at the `List Char`
level with Python semantics: leftmost match, lazy quantifiers,
case-insensitive comparison, dot matches newline.  `findall(...)[0]`
raises `IndexError` when there is no match, so the embedded
`GetBodyFromSource` returns an `Option`.
-/

/-- Case-insensitive character comparison (regex flag `re.I`). -/
def charEqCI (a b : Char) : Bool := a.toLower == b.toLower

/-- Match a literal pattern `p` case-insensitively at the start of `s`;
on success return the rest of `s`. -/
def dropPrefixCI : List Char → List Char → Option (List Char)
  | [], s => some s
  | _ :: _, [] => none
  | p :: ps, c :: cs => if charEqCI p c then dropPrefixCI ps cs else none

/-- Pointwise case-insensitive equality of two character lists. -/
def ciEq : List Char → List Char → Bool
  | [], [] => true
  | p :: ps, c :: cs => charEqCI p c && ciEq ps cs
  | _, _ => false

/-- `p` occurs case-insensitively at the start of `s`. -/
def isPrefCI (p s : List Char) : Bool := (dropPrefixCI p s).isSome

/-- `p` occurs case-insensitively somewhere inside `s`. -/
def occursCI (p : List Char) : List Char → Bool
  | [] => p.isEmpty
  | c :: cs => isPrefCI p (c :: cs) || occursCI p cs

/-- The pattern `[^>]*?>`: lazily skip non-`>` characters, then consume `>`. -/
def matchToGt : List Char → Option (List Char)
  | [] => none
  | c :: cs => if c = '>' then some cs else matchToGt cs

/-- The regex literal `id="body"`. -/
def pIdL : List Char := ['i', 'd', '=', '\"', 'b', 'o', 'd', 'y', '\"']

/-- The pattern `[^>]*?id="body"[^>]*?>` with backtracking: at each
position first try the literal (lazy star), falling back to consuming one
more non-`>` character. -/
def matchIdToGt : List Char → Option (List Char)
  | [] => none
  | c :: cs =>
    match dropPrefixCI pIdL (c :: cs) with
    | some r =>
      match matchToGt r with
      | some r2 => some r2
      | none => if c = '>' then none else matchIdToGt cs
    | none => if c = '>' then none else matchIdToGt cs

/-- The regex literal `<div`. -/
def pDivL : List Char := ['<', 'd', 'i', 'v']

/-- The opening part `<div[^>]*?id="body"[^>]*?>` of `Note.re_get_body`. -/
def matchDivOpen (s : List Char) : Option (List Char) :=
  (dropPrefixCI pDivL s).bind matchIdToGt

/-- The pattern `(.*?)pat`: lazily capture characters (`.` matches
newline, flag `re.S`) up to the first case-insensitive occurrence of the
literal `pat`; return the capture and the rest. -/
def captureUpto (pat : List Char) : List Char → Option (List Char × List Char)
  | [] => none
  | c :: cs =>
    match dropPrefixCI pat (c :: cs) with
    | some r => some ([], r)
    | none => (captureUpto pat cs).map (fun pr => (c :: pr.1, pr.2))

/-- The regex literal `</div>`. -/
def pDivCloseL : List Char := ['<', '/', 'd', 'i', 'v', '>']

/-- First capture of `Note.re_get_body.findall`: scan left to right for
`<div[^>]*?id="body"[^>]*?>(.*?)</div>` and return the first capture. -/
def findBody : List Char → Option (List Char)
  | [] => none
  | c :: cs =>
    match (matchDivOpen (c :: cs)).bind (captureUpto pDivCloseL) with
    | some pr => some pr.1
    | none => findBody cs

/-- The regex literal `<p>`. -/
def pPOpenL : List Char := ['<', 'p', '>']

/-- The regex literal `</p>`. -/
def pPCloseL : List Char := ['<', '/', 'p', '>']

/-- `re_replace1.sub('\g<1>\n', body)` with explicit fuel (one unit per
scan step; `stripP` below supplies `s.length`, which is always enough):
replace each non-overlapping leftmost match of `<p>(.*?)</p>` by its
capture followed by `'\n'`. -/
def stripPF : Nat → List Char → List Char
  | _, [] => []
  | 0, s => s
  | n + 1, c :: cs =>
    match dropPrefixCI pPOpenL (c :: cs) with
    | some r =>
      match captureUpto pPCloseL r with
      | some pr => pr.1 ++ '\n' :: stripPF n pr.2
      | none => c :: stripPF n cs
    | none => c :: stripPF n cs

/-- `re_replace1.sub('\g<1>\n', body)`: replace each non-overlapping
leftmost match of `<p>(.*?)</p>` by its capture followed by `'\n'`. -/
def stripP (s : List Char) : List Char := stripPF s.length s

/-- Python's `str.split('\n')` (never returns an empty list). -/
def splitNl : List Char → List (List Char)
  | [] => [[]]
  | c :: cs =>
    if c = '\n' then [] :: splitNl cs
    else
      match splitNl cs with
      | [] => [[c]]
      | l :: ls => (c :: l) :: ls

/-- One paragraph segment `<p>` ++ line ++ `</p>`. -/
def seg (l : List Char) : List Char :=
  '<' :: 'p' :: '>' :: (l ++ ['<', '/', 'p', '>'])

/-- Concatenation of the paragraph segments of a list of lines. -/
def segsOf : List (List Char) → List Char
  | [] => []
  | l :: ls => seg l ++ segsOf ls

/-- The literal `<div id="body">` produced by `SerializeBody`. -/
def divHeaderL : List Char :=
  ['<', 'd', 'i', 'v', ' ', 'i', 'd', '=', '\"', 'b', 'o', 'd', 'y', '\"', '>']

/-- `NormalNote.SerializeBody`: split the text on `'\n'`, wrap each line
in `<p>...</p>`, concatenate, and wrap in `<div id="body">...</div>`. -/
def SerializeBody (t : String) : String :=
  ⟨divHeaderL ++ segsOf (splitNl t.data) ++ pDivCloseL⟩

/-- `NormalNote.GetBodyFromSource`: take the first capture of
`re_get_body.findall` (raising, i.e. `none`, when there is none) and
substitute every `<p>(.*?)</p>` by its capture plus a newline. -/
def GetBodyFromSource (source : String) : Option String :=
  (findBody source.data).map (fun b => ⟨stripP b⟩)

/-- The plain text obtained by replacing each paragraph segment of a list
of lines by its content followed by a newline (what the decode
substitution produces on a well-formed body). -/
def decodedOf : List (List Char) → List Char
  | [] => []
  | l :: ls => l ++ '\n' :: decodedOf ls

/-- Join lines with `'\n'` separators (left inverse of `splitNl`). -/
def joinNl : List (List Char) → List Char
  | [] => []
  | [l] => l
  | l :: ls => l ++ '\n' :: joinNl ls

/-- Python's `str.splitlines()` for `'\n'` only: the list of lines of a
text, a trailing newline terminating the last line rather than opening an
extra empty one. -/
def splitlinesNl : List Char → List (List Char)
  | [] => []
  | c :: cs =>
    if c = '\n' then [] :: splitlinesNl cs
    else
      match splitlinesNl cs with
      | [] => [[c]]
      | l :: ls => (c :: l) :: ls

/-- A stored source whose body container holds exactly the paragraph
segments of the lines `ls` — the storage format written by
`SerializeBody`. -/
def bodySource (ls : List (List Char)) : String :=
  ⟨divHeaderL ++ segsOf ls ++ pDivCloseL⟩

/-!
Part 2: the autosave behaviour of a note session (`Note` in
`notegui.py`) and of a memo row in the list window
(`MemoList.MemoNode`).

The GUI object state that the claims are about is captured in explicit
records.  `memo.save_memo`, `memo.set_title` and `memo.close_memo` live
in a module of this repository that is not part of the source here; they
are modelled from the spec where marked.
-/

/-- The state of one open note session (`Note`): the status flag
`is_modified`, the debounce timer, the editable text (`pendingText`),
and observation fields for the collaborator calls. -/
structure NoteState where
  is_modified : Bool
  timerRunning : Bool
  text : String
  saveCalls : Nat
  shown : Bool
  closeComplete : Bool
deriving DecidableEq, Repr

/-- Modelled from the spec: `memo.save_memo` (not in the source file)
persists the memo through `MemoService.update`, which returns
success or failure (`ok`); the call is recorded and the outcome
returned to the caller. -/
def save_memo (ok : Bool) (s : NoteState) : NoteState × Bool :=
  ({ s with saveCalls := s.saveCalls + 1 }, ok)

/-- `Note.SetStatusModified`: set the modified flag (and swap the status
bitmap, not modelled). -/
def SetStatusModified (s : NoteState) : NoteState := { s with is_modified := true }

/-- `Note.SetStatusRecent`: clear the modified flag. -/
def SetStatusRecent (s : NoteState) : NoteState := { s with is_modified := false }

/-- `Note.StartTimer`: stop the timer if running, then start it. -/
def StartTimer (s : NoteState) : NoteState := { s with timerRunning := true }

/-- `Note.StopTimer`. -/
def StopTimer (s : NoteState) : NoteState := { s with timerRunning := false }

/-- `Note.UpdateNote`: `self.memo.save_memo()` — the returned outcome is
discarded. -/
def UpdateNote (ok : Bool) (s : NoteState) : NoteState := (save_memo ok s).1

/-- `NormalNote.OnChange` (EVT_TEXT): the widget text has changed to
`newText`; mark modified and (re)arm the debounce timer. -/
def OnChange (newText : String) (s : NoteState) : NoteState :=
  StartTimer (SetStatusModified { s with text := newText })

/-- `Note.OnTimerEvent`: stop the timer, save, set status recent. -/
def OnTimerEvent (ok : Bool) (s : NoteState) : NoteState :=
  SetStatusRecent (UpdateNote ok (StopTimer s))

/-- `Note.OnStatus`: if modified, stop the timer, save, set status
recent; otherwise do nothing. -/
def OnStatus (ok : Bool) (s : NoteState) : NoteState :=
  if s.is_modified then SetStatusRecent (UpdateNote ok (StopTimer s)) else s

/-- Modelled from the spec: `memo.close_memo` (not in the source file) —
on a close request, "if Dirty, perform an immediate synchronous save
attempt before signaling close-complete". -/
def close_memo (ok : Bool) (s : NoteState) : NoteState :=
  let s1 := if s.is_modified then (save_memo ok s).1 else s
  { s1 with closeComplete := true }

/-- `Note.CloseNote`: hide the window, then `memo.close_memo()`. -/
def CloseNote (ok : Bool) (s : NoteState) : NoteState :=
  close_memo ok { s with shown := false }

/-- `Note.OnClose`: the close button delegates to `CloseNote`. -/
def OnClose (ok : Bool) (s : NoteState) : NoteState := CloseNote ok s

/-- The state of one row of the memo list (`MemoList.MemoNode`) together
with the fields of the memo it mutates: the rename-in-progress flag, the
title text widget, the stored title, the visibility flag, the note
window's visibility and modified flag, and a count of save calls. -/
structure MemoNodeState where
  on_modifying : Bool
  textValue : String
  title : String
  is_open : Bool
  noteShown : Bool
  note_is_modified : Bool
  saveCalls : Nat
deriving DecidableEq, Repr

/-- Modelled from the spec: `memo.save_memo` as called from the memo
list row — persists through `MemoService.update`; the call is
recorded. -/
def node_save_memo (m : MemoNodeState) : MemoNodeState :=
  { m with saveCalls := m.saveCalls + 1 }

/-- Modelled from the spec: `memo.set_title` stores the proposed
title on the memo. -/
def set_title (t : String) (m : MemoNodeState) : MemoNodeState :=
  { m with title := t }

/-- `Note.CheckShowNote` with an explicit value: show or hide the note
window. -/
def CheckShowNoteVal (v : Bool) (m : MemoNodeState) : MemoNodeState :=
  { m with noteShown := v }

/-- `MemoList.MemoNode.OnButtonIsOpen`: flip `is_open`, update the note
window's visibility, and save. -/
def OnButtonIsOpen (m : MemoNodeState) : MemoNodeState :=
  let m1 := { m with is_open := !m.is_open }
  let m2 := CheckShowNoteVal m1.is_open m1
  node_save_memo m2

/-- `MemoList.MemoNode.OnButtonModify`: a text-enter event while not
renaming is ignored; the first press enters rename mode; the second
press accepts the title only when it is non-empty, in which case it is
stored and saved. -/
def OnButtonModify (isTextEnterEvt : Bool) (m : MemoNodeState) : MemoNodeState :=
  if isTextEnterEvt && !m.on_modifying then m
  else if !m.on_modifying then { m with on_modifying := true }
  else if m.textValue.length > 0 then
    { node_save_memo (set_title m.textValue m) with on_modifying := false }
  else m

example : SerializeBody "a" = "<div id=\"body\"><p>a</p></div>" := by decide
example : SerializeBody "" = "<div id=\"body\"><p></p></div>" := by decide
example : SerializeBody "a\n\nb" =
    "<div id=\"body\"><p>a</p><p></p><p>b</p></div>" := by decide
example : GetBodyFromSource "<div id=\"body\"><p>a</p></div>" = some "a\n" := by decide
example : GetBodyFromSource "<div>no body here</div>" = none := by decide
example : GetBodyFromSource (SerializeBody "a\n\nb") = some "a\n\nb\n" := by decide

/-!
Lemmas about the matching primitives.
-/

theorem charEqCI_refl (a : Char) : charEqCI a a = true := by simp [charEqCI]

theorem dropPrefixCI_self (p w : List Char) : dropPrefixCI p (p ++ w) = some w := by
  induction p with
  | nil => rfl
  | cons a ps ih => simp [dropPrefixCI, charEqCI_refl, ih]

theorem dropPrefixCI_append_some {p l r : List Char} (w : List Char)
    (h : dropPrefixCI p l = some r) :
    dropPrefixCI p (l ++ w) = some (r ++ w) := by
  induction p generalizing l with
  | nil =>
    simp only [dropPrefixCI, Option.some.injEq] at h
    subst h; rfl
  | cons a ps ih =>
    cases l with
    | nil => simp [dropPrefixCI] at h
    | cons c cs =>
      simp only [dropPrefixCI] at h ⊢
      by_cases hc : charEqCI a c
      · rw [if_pos hc] at h ⊢
        exact ih h
      · rw [if_neg hc] at h; cases h

theorem dropPrefixCI_append_of_le {p l : List Char} (x : List Char)
    (hlen : p.length ≤ l.length) :
    dropPrefixCI p (l ++ x) = (dropPrefixCI p l).map (fun r => r ++ x) := by
  induction p generalizing l with
  | nil => simp [dropPrefixCI]
  | cons a ps ih =>
    cases l with
    | nil => simp at hlen
    | cons c cs =>
      simp only [List.cons_append, dropPrefixCI]
      by_cases hc : charEqCI a c
      · rw [if_pos hc, if_pos hc]
        exact ih (by simpa using hlen)
      · rw [if_neg hc, if_neg hc]; rfl

theorem dropPrefixCI_all_ne {pt : List Char} (l w : List Char)
    (hpt : ∀ c ∈ pt, charEqCI c '<' = false)
    (hlen : l.length < pt.length) :
    dropPrefixCI pt (l ++ '<' :: w) = none := by
  induction l generalizing pt with
  | nil =>
    cases pt with
    | nil => simp at hlen
    | cons p0 ps =>
      simp only [List.nil_append, dropPrefixCI]
      rw [if_neg]
      simp [hpt p0 (by simp)]
  | cons a l2 ih =>
    cases pt with
    | nil => simp at hlen
    | cons p0 ps =>
      simp only [List.cons_append, dropPrefixCI]
      by_cases hc : charEqCI p0 a
      · rw [if_pos hc]
        exact ih (fun c hc2 => hpt c (by simp [hc2])) (by simpa using hlen)
      · rw [if_neg hc]

theorem isPrefCI_false {p s : List Char} (h : isPrefCI p s = false) :
    dropPrefixCI p s = none := by
  unfold isPrefCI at h
  cases hx : dropPrefixCI p s with
  | none => rfl
  | some r => rw [hx] at h; simp at h

theorem captureUpto_step (pat : List Char) (c : Char) (cs : List Char)
    (h : dropPrefixCI pat (c :: cs) = none) :
    captureUpto pat (c :: cs) =
      (captureUpto pat cs).map (fun pr => (c :: pr.1, pr.2)) := by
  simp only [captureUpto, h]

theorem captureUpto_found (pat : List Char) (c : Char) (cs r : List Char)
    (h : dropPrefixCI pat (c :: cs) = some r) :
    captureUpto pat (c :: cs) = some ([], r) := by
  simp only [captureUpto, h]

/-- Scanning for `(.*?)pat`, where `pat` starts with `'<'` and has no
other `'<'`, passes over a line `l` free of `pat` and resumes at the
`'<'` that follows it. -/
theorem captureUpto_passLine {pt : List Char} (l w : List Char)
    (hpt : ∀ c ∈ pt, charEqCI c '<' = false)
    (hno : occursCI ('<' :: pt) l = false) :
    captureUpto ('<' :: pt) (l ++ '<' :: w) =
      (captureUpto ('<' :: pt) ('<' :: w)).map (fun pr => (l ++ pr.1, pr.2)) := by
  induction l with
  | nil =>
    simp only [List.nil_append]
    cases captureUpto ('<' :: pt) ('<' :: w) with
    | none => rfl
    | some pr => simp
  | cons a l2 ih =>
    have hno2 : isPrefCI ('<' :: pt) (a :: l2) = false ∧
        occursCI ('<' :: pt) l2 = false := by
      have : occursCI ('<' :: pt) (a :: l2) =
          (isPrefCI ('<' :: pt) (a :: l2) || occursCI ('<' :: pt) l2) := rfl
      rw [this] at hno
      exact ⟨by cases hb : isPrefCI ('<' :: pt) (a :: l2) <;> simp [hb] at hno ⊢,
             by cases hb : occursCI ('<' :: pt) l2 <;> simp [hb] at hno ⊢⟩
    have hdp : dropPrefixCI ('<' :: pt) ((a :: l2) ++ '<' :: w) = none := by
      by_cases hlen : ('<' :: pt).length ≤ (a :: l2).length
      · rw [dropPrefixCI_append_of_le ('<' :: w) hlen,
            isPrefCI_false hno2.1]
        rfl
      · push_neg at hlen
        simp only [List.cons_append, dropPrefixCI]
        by_cases hca : charEqCI '<' a
        · rw [if_pos hca]
          exact dropPrefixCI_all_ne l2 w hpt (by simp at hlen ⊢; omega)
        · rw [if_neg hca]
    show captureUpto ('<' :: pt) (a :: (l2 ++ '<' :: w)) =
      Option.map (fun pr => (a :: l2 ++ pr.1, pr.2)) (captureUpto ('<' :: pt) ('<' :: w))
    rw [captureUpto_step ('<' :: pt) a (l2 ++ '<' :: w) hdp, ih hno2.2]
    cases captureUpto ('<' :: pt) ('<' :: w) with
    | none => rfl
    | some pr => simp

theorem captureUpto_passLine_div (l w : List Char)
    (hl : occursCI pDivCloseL l = false) :
    captureUpto pDivCloseL (l ++ '<' :: w) =
      (captureUpto pDivCloseL ('<' :: w)).map (fun pr => (l ++ pr.1, pr.2)) :=
  captureUpto_passLine l w (by decide) hl

theorem captureUpto_passLine_p (l w : List Char)
    (hl : occursCI pPCloseL l = false) :
    captureUpto pPCloseL (l ++ '<' :: w) =
      (captureUpto pPCloseL ('<' :: w)).map (fun pr => (l ++ pr.1, pr.2)) :=
  captureUpto_passLine l w (by decide) hl

/-- The lazy `(.*?)</div>` scan passes over an opening `<p>` tag. -/
theorem captureUpto_div_passPOpen (xs : List Char) :
    captureUpto pDivCloseL ('<' :: 'p' :: '>' :: xs) =
      (captureUpto pDivCloseL xs).map (fun pr => ('<' :: 'p' :: '>' :: pr.1, pr.2)) := by
  rw [captureUpto_step pDivCloseL '<' ('p' :: '>' :: xs) rfl,
      captureUpto_step pDivCloseL 'p' ('>' :: xs) rfl,
      captureUpto_step pDivCloseL '>' xs rfl]
  cases captureUpto pDivCloseL xs with
  | none => rfl
  | some pr => simp

/-- The lazy `(.*?)</div>` scan passes over a closing `</p>` tag. -/
theorem captureUpto_div_passPClose (xs : List Char) :
    captureUpto pDivCloseL ('<' :: '/' :: 'p' :: '>' :: xs) =
      (captureUpto pDivCloseL xs).map (fun pr => ('<' :: '/' :: 'p' :: '>' :: pr.1, pr.2)) := by
  rw [captureUpto_step pDivCloseL '<' ('/' :: 'p' :: '>' :: xs) rfl,
      captureUpto_step pDivCloseL '/' ('p' :: '>' :: xs) rfl,
      captureUpto_step pDivCloseL 'p' ('>' :: xs) rfl,
      captureUpto_step pDivCloseL '>' xs rfl]
  cases captureUpto pDivCloseL xs with
  | none => rfl
  | some pr => simp

/-- On a body made of clean paragraph segments followed by the closing
`</div>`, the lazy capture returns exactly the segments. -/
theorem captureUpto_segs (ls : List (List Char))
    (hclean : ∀ l ∈ ls, occursCI pDivCloseL l = false) :
    captureUpto pDivCloseL (segsOf ls ++ pDivCloseL) = some (segsOf ls, []) := by
  induction ls with
  | nil => decide
  | cons l ls ih =>
    have hl : occursCI pDivCloseL l = false := hclean l (by simp)
    have hls : ∀ x ∈ ls, occursCI pDivCloseL x = false :=
      fun x hx => hclean x (List.mem_cons_of_mem _ hx)
    have hshape : segsOf (l :: ls) ++ pDivCloseL =
        '<' :: 'p' :: '>' ::
          (l ++ '<' :: '/' :: 'p' :: '>' :: (segsOf ls ++ pDivCloseL)) := by
      simp [segsOf, seg]
    rw [hshape, captureUpto_div_passPOpen,
        captureUpto_passLine_div l _ hl,
        captureUpto_div_passPClose, ih hls]
    simp [segsOf, seg]

theorem findBody_cons_some {c : Char} {cs b r : List Char}
    (h : (matchDivOpen (c :: cs)).bind (captureUpto pDivCloseL) = some (b, r)) :
    findBody (c :: cs) = some b := by
  simp only [findBody, h]

/-- On a serialized source the body regex captures exactly the paragraph
segments. -/
theorem findBody_segs (ls : List (List Char))
    (hclean : ∀ l ∈ ls, occursCI pDivCloseL l = false) :
    findBody (divHeaderL ++ (segsOf ls ++ pDivCloseL)) = some (segsOf ls) := by
  have hm : matchDivOpen (divHeaderL ++ (segsOf ls ++ pDivCloseL)) =
      some (segsOf ls ++ pDivCloseL) := rfl
  have hbind : (matchDivOpen (divHeaderL ++ (segsOf ls ++ pDivCloseL))).bind
      (captureUpto pDivCloseL) = some (segsOf ls, []) := by
    rw [hm]
    exact captureUpto_segs ls hclean
  exact findBody_cons_some hbind

theorem stripPF_nil (n : Nat) : stripPF n [] = [] := by cases n <;> rfl

/-- The `<p>(.*?)</p>` substitution turns clean paragraph segments into
their contents, each followed by a newline. -/
theorem stripPF_segs (ls : List (List Char)) :
    ∀ n, (segsOf ls).length ≤ n → (∀ l ∈ ls, occursCI pPCloseL l = false) →
    stripPF n (segsOf ls) = decodedOf ls := by
  induction ls with
  | nil => intro n _ _; exact stripPF_nil n
  | cons l ls ih =>
    intro n hn hclean
    have hl : occursCI pPCloseL l = false := hclean l (by simp)
    have hls : ∀ x ∈ ls, occursCI pPCloseL x = false :=
      fun x hx => hclean x (List.mem_cons_of_mem _ hx)
    have hshape : segsOf (l :: ls) =
        '<' :: 'p' :: '>' :: (l ++ '<' :: '/' :: 'p' :: '>' :: segsOf ls) := by
      simp [segsOf, seg]
    cases n with
    | zero =>
      exfalso
      rw [hshape] at hn
      simp at hn
    | succ n =>
      have hlen : (segsOf ls).length ≤ n := by
        simp [segsOf, seg] at hn
        omega
      rw [hshape]
      have hopen : dropPrefixCI pPOpenL
          ('<' :: 'p' :: '>' :: (l ++ '<' :: '/' :: 'p' :: '>' :: segsOf ls)) =
          some (l ++ '<' :: '/' :: 'p' :: '>' :: segsOf ls) := rfl
      have hcap : captureUpto pPCloseL (l ++ '<' :: '/' :: 'p' :: '>' :: segsOf ls) =
          some (l, segsOf ls) := by
        rw [captureUpto_passLine_p l _ hl,
            captureUpto_found pPCloseL '<' ('/' :: 'p' :: '>' :: segsOf ls) (segsOf ls) rfl]
        simp
      simp only [stripPF, hopen, hcap]
      rw [ih n hlen hls]
      simp [decodedOf]

/-!
Lemmas about `splitNl`, `joinNl`, `decodedOf` and occurrence of a
pattern inside lines of a text.
-/

theorem splitNl_ne_nil (s : List Char) : splitNl s ≠ [] := by
  cases s with
  | nil => simp [splitNl]
  | cons c cs =>
    simp only [splitNl]
    by_cases hc : c = '\n'
    · simp [hc]
    · rw [if_neg hc]
      cases splitNl cs <;> simp

theorem splitNl_head (cs m : List Char) (ms : List (List Char))
    (h : splitNl cs = m :: ms) : ∃ post, cs = m ++ post := by
  induction cs generalizing m ms with
  | nil =>
    simp only [splitNl, List.cons.injEq] at h
    exact ⟨[], by simp [← h.1]⟩
  | cons c cs ih =>
    simp only [splitNl] at h
    by_cases hc : c = '\n'
    · rw [if_pos hc] at h
      simp only [List.cons.injEq] at h
      exact ⟨c :: cs, by simp [← h.1]⟩
    · rw [if_neg hc] at h
      cases hm : splitNl cs with
      | nil => exact absurd hm (splitNl_ne_nil cs)
      | cons m1 ms1 =>
        rw [hm] at h
        simp only [List.cons.injEq] at h
        obtain ⟨post, hpost⟩ := ih m1 ms1 hm
        refine ⟨post, ?_⟩
        rw [← h.1, hpost]
        rfl

theorem splitNl_mem_split (s l : List Char) (h : l ∈ splitNl s) :
    ∃ pre post, s = pre ++ l ++ post := by
  induction s with
  | nil =>
    simp [splitNl] at h
    exact ⟨[], [], by simp [h]⟩
  | cons c cs ih =>
    simp only [splitNl] at h
    by_cases hc : c = '\n'
    · rw [if_pos hc] at h
      rcases List.mem_cons.mp h with h1 | h2
      · exact ⟨[], c :: cs, by simp [h1]⟩
      · obtain ⟨pre, post, hsp⟩ := ih h2
        exact ⟨c :: pre, post, by simp [hsp]⟩
    · rw [if_neg hc] at h
      cases hm : splitNl cs with
      | nil => exact absurd hm (splitNl_ne_nil cs)
      | cons m1 ms1 =>
        rw [hm] at h
        rcases List.mem_cons.mp h with h1 | h2
        · obtain ⟨post, hpost⟩ := splitNl_head cs m1 ms1 hm
          exact ⟨[], post, by simp [h1, hpost]⟩
        · have h2' : l ∈ splitNl cs := by rw [hm]; exact List.mem_cons_of_mem _ h2
          obtain ⟨pre, post, hsp⟩ := ih h2'
          exact ⟨c :: pre, post, by simp [hsp]⟩

theorem occursCI_nil_pat (s : List Char) : occursCI [] s = true := by
  cases s <;> simp [occursCI, isPrefCI, dropPrefixCI]

theorem occursCI_append_right {p y : List Char} (x : List Char)
    (h : occursCI p y = true) : occursCI p (x ++ y) = true := by
  induction x with
  | nil => simpa
  | cons a x ih => simp [occursCI, ih]

theorem occursCI_append_left {p x : List Char} (y : List Char)
    (h : occursCI p x = true) : occursCI p (x ++ y) = true := by
  induction x with
  | nil =>
    have hp : p = [] := by
      cases p with
      | nil => rfl
      | cons a ps => simp [occursCI, List.isEmpty] at h
    subst hp
    simpa using occursCI_nil_pat y
  | cons a x ih =>
    simp only [occursCI, Bool.or_eq_true] at h
    rcases h with h1 | h2
    · obtain ⟨r, hr⟩ := Option.isSome_iff_exists.mp h1
      have h2 := dropPrefixCI_append_some y hr
      have h3 : isPrefCI p ((a :: x) ++ y) = true := by
        unfold isPrefCI
        rw [h2]
        rfl
      have hocc : occursCI p ((a :: x) ++ y) =
          (isPrefCI p ((a :: x) ++ y) || occursCI p (x ++ y)) := rfl
      rw [hocc, h3]
      rfl
    · simp only [List.cons_append, occursCI, Bool.or_eq_true]
      right
      exact ih h2

theorem occursCI_of_infix {p s l : List Char} (pre post : List Char)
    (hs : s = pre ++ l ++ post) (h : occursCI p l = true) :
    occursCI p s = true := by
  subst hs
  rw [List.append_assoc]
  exact occursCI_append_right pre (occursCI_append_left post h)

theorem splitNl_clean {p s : List Char} (h : occursCI p s = false) :
    ∀ l ∈ splitNl s, occursCI p l = false := by
  intro l hl
  cases hb : occursCI p l with
  | false => rfl
  | true =>
    exfalso
    obtain ⟨pre, post, hsplit⟩ := splitNl_mem_split s l hl
    have := occursCI_of_infix pre post hsplit hb
    rw [h] at this
    cases this

theorem joinNl_cons (l : List Char) (ls : List (List Char)) :
    joinNl (l :: ls) = if ls = [] then l else l ++ '\n' :: joinNl ls := by
  cases ls <;> simp [joinNl]

theorem joinNl_splitNl (s : List Char) : joinNl (splitNl s) = s := by
  induction s with
  | nil => rfl
  | cons c cs ih =>
    simp only [splitNl]
    by_cases hc : c = '\n'
    · rw [if_pos hc]
      rw [joinNl_cons, if_neg (splitNl_ne_nil cs), ih, hc]
      rfl
    · rw [if_neg hc]
      cases hm : splitNl cs with
      | nil => exact absurd hm (splitNl_ne_nil cs)
      | cons m1 ms1 =>
        rw [hm] at ih
        cases ms1 with
        | nil =>
          simp only [joinNl] at ih ⊢
          rw [ih]
        | cons m2 ms2 =>
          simp only [joinNl] at ih ⊢
          rw [List.cons_append, ih]

theorem decodedOf_eq (ls : List (List Char)) (h : ls ≠ []) :
    decodedOf ls = joinNl ls ++ ['\n'] := by
  induction ls with
  | nil => exact absurd rfl h
  | cons l ls ih =>
    cases ls with
    | nil => simp [decodedOf, joinNl]
    | cons l2 ls2 =>
      show l ++ '\n' :: decodedOf (l2 :: ls2) = joinNl (l :: l2 :: ls2) ++ ['\n']
      rw [ih (by simp)]
      simp [joinNl]

theorem splitNl_append_nl (s : List Char) :
    splitNl (s ++ ['\n']) = splitNl s ++ [[]] := by
  induction s with
  | nil => rfl
  | cons c cs ih =>
    by_cases hc : c = '\n'
    · subst hc
      show splitNl ('\n' :: (cs ++ ['\n'])) = splitNl ('\n' :: cs) ++ [[]]
      simp only [splitNl, if_pos rfl, ih]
      rfl
    · show splitNl (c :: (cs ++ ['\n'])) = splitNl (c :: cs) ++ [[]]
      simp only [splitNl, if_neg hc, ih]
      cases hm : splitNl cs with
      | nil => exact absurd hm (splitNl_ne_nil cs)
      | cons m1 ms1 => rfl

/-- The lines of a newline-terminated text (splitlines semantics) are
exactly the `split('\n')` lines of the text without that terminator. -/
theorem splitlinesNl_append_nl (s : List Char) :
    splitlinesNl (s ++ ['\n']) = splitNl s := by
  induction s with
  | nil => rfl
  | cons c cs ih =>
    by_cases hc : c = '\n'
    · subst hc
      show splitlinesNl ('\n' :: (cs ++ ['\n'])) = splitNl ('\n' :: cs)
      simp only [splitlinesNl, splitNl, if_pos rfl, ih]
    · show splitlinesNl (c :: (cs ++ ['\n'])) = splitNl (c :: cs)
      simp only [splitlinesNl, splitNl, if_neg hc, ih]

/-- Decoding a serialized body: the list-level round trip.  On a text
free of `</p>` and `</div>` (case-insensitively, as the regexes match
case-insensitively), decoding the serialization yields the text plus a
trailing newline. -/
theorem decode_encode_list (s : List Char)
    (hP : occursCI pPCloseL s = false) (hD : occursCI pDivCloseL s = false) :
    (findBody (divHeaderL ++ segsOf (splitNl s) ++ pDivCloseL)).map
        (fun b => (⟨stripP b⟩ : String)) = some ⟨s ++ ['\n']⟩ := by
  rw [List.append_assoc, findBody_segs _ (splitNl_clean hD)]
  simp only [Option.map_some']
  unfold stripP
  rw [stripPF_segs _ _ le_rfl (splitNl_clean hP),
      decodedOf_eq _ (splitNl_ne_nil s), joinNl_splitNl]

/-- Round trip at the `String` level: decoding the serialization of a
text free of `</p>` and `</div>` yields the text plus a trailing
newline (each paragraph substitution appends one `'\n'`). -/
theorem decode_encode (t : String)
    (hP : occursCI pPCloseL t.data = false)
    (hD : occursCI pDivCloseL t.data = false) :
    GetBodyFromSource (SerializeBody t) = some (t ++ "\n") := by
  have h := decode_encode_list t.data hP hD
  have hs : t ++ "\n" = ⟨t.data ++ ['\n']⟩ := by cases t; rfl
  rw [hs]
  exact h

/-!
The claims.
-/

/-- C1, as stated, is false: for the plain text `"a"` (which contains no
paragraph delimiter and no container markup), decoding the encoding
yields `"a\n"`, not `"a"`. -/
theorem C1_roundtrip_counterexample :
    GetBodyFromSource (SerializeBody "a") = some ("a" ++ "\n") ∧
    GetBodyFromSource (SerializeBody "a") ≠ some "a" := by decide

/-- C1 (amended): for every plain text `t` that contains no paragraph
delimiter (`<p>`/`</p>`) and no closing container markup `</div>` as
literal text (case-insensitively, as the regexes match
case-insensitively), decoding the encoding of `t` yields `t` followed by
one trailing newline: `GetBodyFromSource (SerializeBody t) = some (t ++ "\n")`. -/
theorem C1_roundtrip_amended (t : String)
    (_h1 : occursCI pPOpenL t.data = false)
    (h2 : occursCI pPCloseL t.data = false)
    (h3 : occursCI pDivCloseL t.data = false) :
    GetBodyFromSource (SerializeBody t) = some (t ++ "\n") :=
  decode_encode t h2 h3

theorem C1_roundtrip_witness :
    GetBodyFromSource (SerializeBody "a") = some ("a" ++ "\n") :=
  C1_roundtrip_amended "a" (by decide) (by decide) (by decide)

/-- C2: on a markup string with no body container the code does not
return an empty text: `findall(...)[0]` raises `IndexError` (here:
`none`), contradicting the spec's non-fatal empty result. -/
theorem C2_missing_container :
    GetBodyFromSource "<div>no body here</div>" = none := by decide

/-- C3, as stated, is false: after a failed save (`ok = false`) on a
dirty session the modified flag is cleared, not kept — the handler
ignores the save outcome and unconditionally sets status recent. -/
theorem C3_save_failure_counterexample :
    ¬ ((OnTimerEvent false ⟨true, true, "x", 0, true, false⟩).is_modified = true) := by
  decide

/-- C3 (amended): when the save performed by the timer event fails, the
session nevertheless ends Clean (`is_modified = false`); `pendingText`
is unchanged and the debounce timer is not re-armed; the resulting state
is identical to that of a successful save, because the save outcome is
discarded. -/
theorem C3_save_failure_amended (s : NoteState) (_h : s.is_modified = true) :
    (OnTimerEvent false s).is_modified = false ∧
    (OnTimerEvent false s).text = s.text ∧
    (OnTimerEvent false s).timerRunning = false ∧
    OnTimerEvent false s = OnTimerEvent true s :=
  ⟨rfl, rfl, rfl, rfl⟩

theorem C3_save_failure_witness :
    (OnTimerEvent false ⟨true, true, "x", 0, true, false⟩).is_modified = false ∧
    (OnTimerEvent false ⟨true, true, "x", 0, true, false⟩).text =
      (⟨true, true, "x", 0, true, false⟩ : NoteState).text ∧
    (OnTimerEvent false ⟨true, true, "x", 0, true, false⟩).timerRunning = false ∧
    OnTimerEvent false ⟨true, true, "x", 0, true, false⟩ =
      OnTimerEvent true ⟨true, true, "x", 0, true, false⟩ :=
  C3_save_failure_amended ⟨true, true, "x", 0, true, false⟩ rfl

/-- C4: a close request on a dirty session performs exactly one
immediate save attempt and signals close-complete (the window is also
hidden).  `memo.close_memo` is modelled from the spec. -/
theorem C4_close_saves (s : NoteState) (ok : Bool) (h : s.is_modified = true) :
    (CloseNote ok s).saveCalls = s.saveCalls + 1 ∧
    (CloseNote ok s).closeComplete = true ∧
    (CloseNote ok s).shown = false := by
  simp [CloseNote, close_memo, save_memo, h]

theorem C4_close_saves_witness :
    (CloseNote false ⟨true, true, "x", 3, true, false⟩).saveCalls =
      (⟨true, true, "x", 3, true, false⟩ : NoteState).saveCalls + 1 ∧
    (CloseNote false ⟨true, true, "x", 3, true, false⟩).closeComplete = true ∧
    (CloseNote false ⟨true, true, "x", 3, true, false⟩).shown = false :=
  C4_close_saves ⟨true, true, "x", 3, true, false⟩ false rfl

/-- C5, as stated, is false: for the plain text `"a"`,
`encode (decode (encode "a"))` is `encode "a\n"`, which has one more
(empty) paragraph segment than `encode "a"`. -/
theorem C5_idempotence_counterexample :
    (GetBodyFromSource (SerializeBody "a")).map SerializeBody =
      some (SerializeBody ("a" ++ "\n")) ∧
    (GetBodyFromSource (SerializeBody "a")).map SerializeBody ≠
      some (SerializeBody "a") := by decide

/-- C5 (amended): for every plain text `t` free of the delimiters,
encoding the decode of the encoding of `t` equals the encoding of
`t ++ "\n"` — i.e. the encoding of `t` with one additional empty
trailing paragraph segment, not the encoding of `t`. -/
theorem C5_idempotence_amended (t : String)
    (_h1 : occursCI pPOpenL t.data = false)
    (h2 : occursCI pPCloseL t.data = false)
    (h3 : occursCI pDivCloseL t.data = false) :
    (GetBodyFromSource (SerializeBody t)).map SerializeBody =
      some (SerializeBody (t ++ "\n")) := by
  rw [decode_encode t h2 h3]
  rfl

theorem C5_idempotence_witness :
    (GetBodyFromSource (SerializeBody "a")).map SerializeBody =
      some (SerializeBody ("a" ++ "\n")) :=
  C5_idempotence_amended "a" (by decide) (by decide) (by decide)

/-- C6, as stated, is false: encoding the empty plain text produces one
empty paragraph segment (`''.split('\n')` is `['']`), not zero. -/
theorem C6_empty_counterexample :
    SerializeBody "" ≠ "<div id=\"body\"></div>" ∧
    SerializeBody "" = "<div id=\"body\"><p></p></div>" := by decide

/-- C6 (amended): encoding the empty plain text produces a body
container holding exactly one empty paragraph segment. -/
theorem C6_empty_amended :
    SerializeBody "" = "<div id=\"body\"><p></p></div>" := by decide

/-- C7: for every plain text, encode wraps each of its lines — empty
lines included — in its own paragraph segment, in order (the encoding
is exactly the storage format holding one segment per `split('\n')`
line), and no line is dropped: decoding the encoding recovers exactly
the list of lines of the text (shown for texts free of the
delimiter/container markup, the codec's stated limitation).  In
particular the three lines `"a"`, `""`, `"b"` produce exactly three
paragraph segments with the middle one empty, and decoding that result
returns the same three lines. -/
theorem C7_empty_line_preservation (t : String)
    (_h1 : occursCI pPOpenL t.data = false)
    (h2 : occursCI pPCloseL t.data = false)
    (h3 : occursCI pDivCloseL t.data = false) :
    SerializeBody t = bodySource (splitNl t.data) ∧
    (GetBodyFromSource (SerializeBody t)).map (fun s => splitlinesNl s.data) =
      some (splitNl t.data) ∧
    SerializeBody "a\n\nb" = "<div id=\"body\"><p>a</p><p></p><p>b</p></div>" ∧
    GetBodyFromSource (SerializeBody "a\n\nb") = some "a\n\nb\n" ∧
    (GetBodyFromSource (SerializeBody "a\n\nb")).map (fun s => splitlinesNl s.data) =
      some [['a'], [], ['b']] := by
  refine ⟨rfl, ?_, by decide, by decide, by decide⟩
  rw [decode_encode t h2 h3]
  have hd : (t ++ "\n").data = t.data ++ ['\n'] := by cases t; rfl
  simp only [Option.map_some']
  rw [hd, splitlinesNl_append_nl]

theorem C7_empty_line_preservation_witness :
    SerializeBody "a\n\nb" = bodySource (splitNl ("a\n\nb" : String).data) ∧
    (GetBodyFromSource (SerializeBody "a\n\nb")).map (fun s => splitlinesNl s.data) =
      some (splitNl ("a\n\nb" : String).data) ∧
    SerializeBody "a\n\nb" = "<div id=\"body\"><p>a</p><p></p><p>b</p></div>" ∧
    GetBodyFromSource (SerializeBody "a\n\nb") = some "a\n\nb\n" ∧
    (GetBodyFromSource (SerializeBody "a\n\nb")).map (fun s => splitlinesNl s.data) =
      some [['a'], [], ['b']] :=
  C7_empty_line_preservation "a\n\nb" (by decide) (by decide) (by decide)

/-- C8, as stated, is false: toggling visibility never marks the
session Dirty — the handler does not touch the modified flag at all, on
a clean session it stays `false` throughout. -/
theorem C8_isopen_counterexample :
    ¬ ((OnButtonIsOpen ⟨false, "t", "t", false, false, false, 0⟩).note_is_modified
        = true) := by decide

/-- C8 (amended): every visibility toggle flips `is_open`, updates the
note window's visibility, and directly triggers exactly one save call;
the session's modified flag is untouched (it is never marked Dirty) and
the debounce pipeline is not involved. -/
theorem C8_isopen_amended (m : MemoNodeState) :
    (OnButtonIsOpen m).saveCalls = m.saveCalls + 1 ∧
    (OnButtonIsOpen m).is_open = !m.is_open ∧
    (OnButtonIsOpen m).noteShown = !m.is_open ∧
    (OnButtonIsOpen m).note_is_modified = m.note_is_modified :=
  ⟨rfl, rfl, rfl, rfl⟩

/-- C9: while renaming, an empty proposed title is rejected with no
state change at all (and hence no service call), while a non-empty
proposed title is stored, saved exactly once, and ends the rename. -/
theorem C9_title_validation (m : MemoNodeState) (b : Bool)
    (h : m.on_modifying = true) (hpos : m.textValue.length > 0) :
    OnButtonModify b { m with textValue := "" } = { m with textValue := "" } ∧
    (OnButtonModify b m).title = m.textValue ∧
    (OnButtonModify b m).saveCalls = m.saveCalls + 1 ∧
    (OnButtonModify b m).on_modifying = false := by
  refine ⟨?_, ?_, ?_, ?_⟩ <;>
    simp [OnButtonModify, h, hpos, node_save_memo, set_title]

theorem C9_title_validation_witness :
    OnButtonModify false { (⟨true, "t", "old", false, false, false, 0⟩ : MemoNodeState)
        with textValue := "" } =
      { (⟨true, "t", "old", false, false, false, 0⟩ : MemoNodeState)
        with textValue := "" } ∧
    (OnButtonModify false ⟨true, "t", "old", false, false, false, 0⟩).title = "t" ∧
    (OnButtonModify false ⟨true, "t", "old", false, false, false, 0⟩).saveCalls = 0 + 1 ∧
    (OnButtonModify false ⟨true, "t", "old", false, false, false, 0⟩).on_modifying = false :=
  C9_title_validation ⟨true, "t", "old", false, false, false, 0⟩ false rfl (by decide)

/-- C10: decoding a stored source whose body container holds at least
one paragraph segment (with segment contents free of the closing
delimiters) yields each segment's content followed by a newline, so the
decoded text ends with a trailing newline. -/
theorem C10_trailing_newline (ls : List (List Char)) (hne : ls ≠ [])
    (hclean : ∀ l ∈ ls, occursCI pPCloseL l = false ∧ occursCI pDivCloseL l = false) :
    GetBodyFromSource (bodySource ls) = some ⟨decodedOf ls⟩ ∧
    ∃ v, decodedOf ls = v ++ ['\n'] := by
  have hP : ∀ l ∈ ls, occursCI pPCloseL l = false := fun l hl => (hclean l hl).1
  have hD : ∀ l ∈ ls, occursCI pDivCloseL l = false := fun l hl => (hclean l hl).2
  constructor
  · show (findBody (divHeaderL ++ segsOf ls ++ pDivCloseL)).map
        (fun b => (⟨stripP b⟩ : String)) = some ⟨decodedOf ls⟩
    rw [List.append_assoc, findBody_segs ls hD]
    simp only [Option.map_some']
    unfold stripP
    rw [stripPF_segs ls _ le_rfl hP]
  · exact ⟨joinNl ls, decodedOf_eq ls hne⟩

theorem C10_trailing_newline_witness :
    (GetBodyFromSource (bodySource [['a']]) = some ⟨decodedOf [['a']]⟩ ∧
      ∃ v, decodedOf [['a']] = v ++ ['\n']) :=
  C10_trailing_newline [['a']] (by decide) (by decide)
